import Mathlib

/-!
Shallow embedding of the stereographic-projection program (`src/main.py`).

Floating-point numbers are modelled as real numbers; Python/numba integers
are modelled as `ℤ` (image dimensions as `ℕ`).  Python `%` on integers with
a positive modulus agrees with `Int.emod`.  Python `round` (banker's
rounding, half to even) is modelled by `pyRound`.  `numpy.arctan2` is
modelled by `arctan2` with its documented quadrant conventions.
-/

noncomputable section

open Real Matrix

/-- Model of `numpy.arctan2 y x`: the angle of the point `(x, y)` in
`(-π, π]`, with `arctan2 0 0 = 0`. -/
def arctan2 (y x : ℝ) : ℝ :=
  if 0 < x then Real.arctan (y / x)
  else if x < 0 then
    (if 0 ≤ y then Real.arctan (y / x) + Real.pi else Real.arctan (y / x) - Real.pi)
  else
    (if 0 < y then Real.pi / 2 else if y < 0 then -(Real.pi / 2) else 0)

/-- Model of Python 3 `round`: round to the nearest integer, ties to the
nearest even integer. -/
def pyRound (x : ℝ) : ℤ :=
  if Int.fract x = 1 / 2 then (if Even ⌊x⌋ then ⌊x⌋ else ⌊x⌋ + 1) else round x

/-- `get_point_on_sphere` from `src/main.py` (lines 42-55): the intersection
with the sphere of radius `r` of the line joining the plane point `Q` to the
projection point.  `k = 2*r**2 / (x**2 + y**2 + r**2)`, result
`[k*x, k*y, (k-1)*r]`.  The third component of `point` is ignored, as in the
source destructuring `[x, y, z] = point`. -/
def get_point_on_sphere (point : Fin 3 → ℝ) (r : ℝ) : Fin 3 → ℝ :=
  let x := point 0
  let y := point 1
  let k := 2 * r ^ 2 / (x ^ 2 + y ^ 2 + r ^ 2)
  ![k * x, k * y, (k - 1) * r]

/-- `axis_rotate` from `src/main.py` (lines 57-69): `np.dot(rot_mat, point)`,
i.e. matrix-vector multiplication. -/
def axis_rotate (point : Fin 3 → ℝ) (m : Matrix (Fin 3) (Fin 3) ℝ) : Fin 3 → ℝ :=
  m.mulVec point

/-- The clamp `if z > r: z = r` inside `get_pix_on_img` (lines 86-87). -/
def clamp_z (z r : ℝ) : ℝ :=
  if z > r then r else z

/-- `get_pix_on_img` from `src/main.py` (lines 71-93): clamp `z` to at most
`r`, then `row = round(arccos(z/r)/π * h_img) % h_img`,
`col = round((arctan2(y,x)/2/π + 0.5) * w_img) % w_img`. -/
def get_pix_on_img (point : Fin 3 → ℝ) (r : ℝ) (h_img w_img : ℕ) : ℤ × ℤ :=
  let x := point 0
  let y := point 1
  let z := clamp_z (point 2) r
  let row := Real.arccos (z / r) / Real.pi
  let col := arctan2 y x / 2 / Real.pi + 0.5
  (pyRound (row * h_img) % (h_img : ℤ), pyRound (col * w_img) % (w_img : ℤ))

/-- The rotation matrix built in `src/main.py` (lines 142-160), as a function
of the three global angles. -/
def rot_mat (alpha beta gamma : ℝ) : Matrix (Fin 3) (Fin 3) ℝ :=
  !![Real.cos gamma * Real.cos beta,
     Real.cos gamma * Real.sin beta * Real.sin alpha - Real.sin gamma * Real.cos alpha,
     Real.cos gamma * Real.sin beta * Real.cos alpha + Real.sin gamma * Real.sin alpha;
     Real.sin gamma * Real.cos beta,
     Real.sin gamma * Real.sin beta * Real.sin alpha + Real.cos gamma * Real.cos alpha,
     Real.sin gamma * Real.sin beta * Real.cos alpha - Real.cos gamma * Real.sin alpha;
     -Real.sin beta,
     Real.cos beta * Real.sin alpha,
     Real.cos beta * Real.cos alpha]

/-- Modelled from the spec: the standard rotation matrix about the x-axis
(the source builds only the composed matrix; the single-axis factors are
named in the spec's contract for the Rotation Builder). -/
def Rx (t : ℝ) : Matrix (Fin 3) (Fin 3) ℝ :=
  !![1, 0, 0;
     0, Real.cos t, -Real.sin t;
     0, Real.sin t, Real.cos t]

/-- Modelled from the spec: the standard rotation matrix about the y-axis. -/
def Ry (t : ℝ) : Matrix (Fin 3) (Fin 3) ℝ :=
  !![Real.cos t, 0, Real.sin t;
     0, 1, 0;
     -Real.sin t, 0, Real.cos t]

/-- Modelled from the spec: the standard rotation matrix about the z-axis. -/
def Rz (t : ℝ) : Matrix (Fin 3) (Fin 3) ℝ :=
  !![Real.cos t, -Real.sin t, 0;
     Real.sin t, Real.cos t, 0;
     0, 0, 1]

/-- `projection` from `src/main.py` (lines 95-119), with the module-level
globals (`offset_ver`, `offset_hor`, `rot_mat`) passed explicitly. -/
def projection (pix_proj : ℤ × ℤ) (r : ℝ) (h_img w_img h_proj w_proj : ℕ)
    (offset_ver offset_hor : ℝ) (m : Matrix (Fin 3) (Fin 3) ℝ) : ℤ × ℤ :=
  let row := pix_proj.1
  let col := pix_proj.2
  let x : ℝ := (row : ℝ) + (offset_ver - 0.5) * (h_proj : ℝ)
  let y : ℝ := (col : ℝ) + (offset_hor - 0.5) * (w_proj : ℝ)
  let z : ℝ := 0
  let Q := ![x, y, z]
  let P := get_point_on_sphere Q r
  let P2 := axis_rotate P m
  get_pix_on_img P2 r h_img w_img

/-- `np.ndindex(arr_proj.shape[:2])` from the sampling loop (line 166):
the row-major list of output coordinates. -/
def ndindex (h w : ℕ) : List (ℤ × ℤ) :=
  (List.range h).flatMap
    (fun i => (List.range w).map (fun j => (Int.ofNat i, Int.ofNat j)))

/-- The sampling loop of `src/main.py` (lines 164-169): for every output
coordinate (in row-major order) write into the output buffer the source
color at the projected coordinate.  Buffers are functions from coordinates
to colors. -/
def run_pipeline {C : Type} (src init : ℤ × ℤ → C) (r : ℝ)
    (h_img w_img h_proj w_proj : ℕ) (offset_ver offset_hor : ℝ)
    (m : Matrix (Fin 3) (Fin 3) ℝ) : ℤ × ℤ → C :=
  (ndindex h_proj w_proj).foldl
    (fun buf p =>
      Function.update buf p
        (src (projection p r h_img w_img h_proj w_proj offset_ver offset_hor m)))
    init

/-- Sum of squares of a 3-vector (used to state norm preservation and the
on-sphere invariant). -/
def sumsq (p : Fin 3 → ℝ) : ℝ :=
  p 0 ^ 2 + p 1 ^ 2 + p 2 ^ 2

/-- Euclidean norm of a 3-vector. -/
def norm3 (p : Fin 3 → ℝ) : ℝ :=
  Real.sqrt (sumsq p)

end

open Real Matrix

section Helpers

lemma pyRound_intCast (n : ℤ) : pyRound (n : ℝ) = n := by
  simp [pyRound, Int.fract_intCast, round_intCast]

lemma pyRound_natCast (n : ℕ) : pyRound (n : ℝ) = n := by
  have h : ((n : ℤ) : ℝ) = (n : ℝ) := by push_cast; ring
  rw [← h, pyRound_intCast]

lemma pyRound_zero : pyRound (0 : ℝ) = 0 := by
  simpa using pyRound_natCast 0

lemma get_pix_on_img_bounds (p : Fin 3 → ℝ) (r : ℝ) (h_img w_img : ℕ)
    (hh : 0 < h_img) (hw : 0 < w_img) :
    0 ≤ (get_pix_on_img p r h_img w_img).1 ∧
    (get_pix_on_img p r h_img w_img).1 < (h_img : ℤ) ∧
    0 ≤ (get_pix_on_img p r h_img w_img).2 ∧
    (get_pix_on_img p r h_img w_img).2 < (w_img : ℤ) := by
  have hh' : (0 : ℤ) < (h_img : ℤ) := by exact_mod_cast hh
  have hw' : (0 : ℤ) < (w_img : ℤ) := by exact_mod_cast hw
  simp only [get_pix_on_img]
  exact ⟨Int.emod_nonneg _ hh'.ne', Int.emod_lt_of_pos _ hh',
    Int.emod_nonneg _ hw'.ne', Int.emod_lt_of_pos _ hw'⟩

end Helpers

/-- C1: for every finite plane point `Q = (x, y, 0)` and every radius
`r > 0`, `get_point_on_sphere` returns exactly
`(k*x, k*y, (k-1)*r)` with `k = 2*r^2/(x^2+y^2+r^2)`, and the denominator
`x^2 + y^2 + r^2` is strictly positive, so the result is well defined. -/
theorem stereo_point_formula (x y r : ℝ) (hr : 0 < r) :
    0 < x ^ 2 + y ^ 2 + r ^ 2 ∧
    get_point_on_sphere ![x, y, 0] r =
      ![2 * r ^ 2 / (x ^ 2 + y ^ 2 + r ^ 2) * x,
        2 * r ^ 2 / (x ^ 2 + y ^ 2 + r ^ 2) * y,
        (2 * r ^ 2 / (x ^ 2 + y ^ 2 + r ^ 2) - 1) * r] := by
  constructor
  · positivity
  · funext i
    fin_cases i <;> simp [get_point_on_sphere]

/-- Witness for C1 at `x = 0`, `y = 0`, `r = 1`. -/
theorem stereo_point_formula_witness :
    (0 : ℝ) < 1 ∧
    (0 < (0 : ℝ) ^ 2 + (0 : ℝ) ^ 2 + (1 : ℝ) ^ 2 ∧
      get_point_on_sphere ![0, 0, 0] 1 =
        ![2 * (1 : ℝ) ^ 2 / ((0 : ℝ) ^ 2 + (0 : ℝ) ^ 2 + (1 : ℝ) ^ 2) * 0,
          2 * (1 : ℝ) ^ 2 / ((0 : ℝ) ^ 2 + (0 : ℝ) ^ 2 + (1 : ℝ) ^ 2) * 0,
          (2 * (1 : ℝ) ^ 2 / ((0 : ℝ) ^ 2 + (0 : ℝ) ^ 2 + (1 : ℝ) ^ 2) - 1) * 1]) :=
  ⟨by norm_num, stereo_point_formula 0 0 1 (by norm_num)⟩

/-- C2 counterexample: at `Q = (0,0,0)` and `r = 1` the code returns the
north pole `(0, 0, 1)`, not the south pole `(0, 0, -1)` the claim asserts. -/
theorem stereo_origin_not_south_pole :
    ¬ get_point_on_sphere ![0, 0, 0] 1 = ![0, 0, -1] := by
  intro h
  have h2 := congrFun h 2
  simp [get_point_on_sphere] at h2

/-- C2 amended: for every `r > 0`, `get_point_on_sphere` at `Q = (0,0,0)`
returns exactly the north pole `(0, 0, r)`, and as `x^2 + y^2 → ∞` the
result approaches the south pole `(0, 0, -r)`: whenever
`x^2 + y^2 ≥ 4*r^4/ε^2 + 2*r^3/ε`, each coordinate is within `ε` of the
south pole. -/
theorem stereo_pole_limits (r x y ε : ℝ) (hr : 0 < r) (he : 0 < ε)
    (hs : 4 * r ^ 4 / ε ^ 2 + 2 * r ^ 3 / ε ≤ x ^ 2 + y ^ 2) :
    get_point_on_sphere ![0, 0, 0] r = ![0, 0, r] ∧
    |get_point_on_sphere ![x, y, 0] r 0| ≤ ε ∧
    |get_point_on_sphere ![x, y, 0] r 1| ≤ ε ∧
    |get_point_on_sphere ![x, y, 0] r 2 + r| ≤ ε := by
  have hD : (0 : ℝ) < x ^ 2 + y ^ 2 + r ^ 2 := by positivity
  have hM' : 4 * r ^ 4 + 2 * r ^ 3 * ε ≤ ε ^ 2 * (x ^ 2 + y ^ 2) := by
    have h2 := mul_le_mul_of_nonneg_left hs (le_of_lt (by positivity : (0 : ℝ) < ε ^ 2))
    calc 4 * r ^ 4 + 2 * r ^ 3 * ε
        = ε ^ 2 * (4 * r ^ 4 / ε ^ 2 + 2 * r ^ 3 / ε) := by field_simp; ring
      _ ≤ ε ^ 2 * (x ^ 2 + y ^ 2) := h2
  have habs : ∀ t : ℝ, t ^ 2 ≤ x ^ 2 + y ^ 2 →
      |2 * r ^ 2 / (x ^ 2 + y ^ 2 + r ^ 2) * t| ≤ ε := by
    intro t ht
    have hkey : (2 * r ^ 2 * t) ^ 2 ≤ (ε * (x ^ 2 + y ^ 2 + r ^ 2)) ^ 2 := by
      have h4 : 4 * r ^ 4 * t ^ 2 ≤ ε ^ 2 * (x ^ 2 + y ^ 2) * t ^ 2 := by
        have h5 : 4 * r ^ 4 ≤ ε ^ 2 * (x ^ 2 + y ^ 2) := by
          linarith [hM', mul_pos (pow_pos hr 3) he]
        exact mul_le_mul_of_nonneg_right h5 (sq_nonneg t)
      have h6 : (x ^ 2 + y ^ 2) * t ^ 2 ≤ (x ^ 2 + y ^ 2 + r ^ 2) ^ 2 := by
        nlinarith [sq_nonneg r, sq_nonneg x, sq_nonneg y,
          mul_le_mul_of_nonneg_left ht (by positivity : (0 : ℝ) ≤ x ^ 2 + y ^ 2)]
      have h7 := mul_le_mul_of_nonneg_left h6 (sq_nonneg ε)
      nlinarith [h4, h7]
    have h8 : |2 * r ^ 2 * t| ≤ ε * (x ^ 2 + y ^ 2 + r ^ 2) :=
      abs_le_of_sq_le_sq hkey (by positivity)
    have h9 : 2 * r ^ 2 / (x ^ 2 + y ^ 2 + r ^ 2) * t = 2 * r ^ 2 * t / (x ^ 2 + y ^ 2 + r ^ 2) := by
      ring
    rw [h9, abs_div, abs_of_pos hD, div_le_iff hD]
    linarith [h8]
  refine ⟨?_, ?_, ?_, ?_⟩
  · funext i
    fin_cases i <;> simp [get_point_on_sphere] <;> field_simp <;> norm_num
  · have := habs x (by nlinarith [sq_nonneg y])
    simpa [get_point_on_sphere] using this
  · have := habs y (by nlinarith [sq_nonneg x])
    simpa [get_point_on_sphere] using this
  · have hz : get_point_on_sphere ![x, y, 0] r 2 + r
        = 2 * r ^ 2 / (x ^ 2 + y ^ 2 + r ^ 2) * r := by
      simp [get_point_on_sphere]
      ring
    rw [hz]
    have h10 : 2 * r ^ 3 ≤ ε * (x ^ 2 + y ^ 2 + r ^ 2) := by
      nlinarith [hM', pow_pos hr 4, pow_pos hr 3, mul_pos he (pow_pos hr 2)]
    have h11 : 2 * r ^ 2 / (x ^ 2 + y ^ 2 + r ^ 2) * r = 2 * r ^ 3 / (x ^ 2 + y ^ 2 + r ^ 2) := by
      ring
    rw [h11, abs_div, abs_of_pos hD, abs_of_pos (by positivity : (0 : ℝ) < 2 * r ^ 3),
      div_le_iff hD]
    linarith [h10]

/-- Witness for the amended C2 at `r = 1`, `x = 3`, `y = 0`, `ε = 1`. -/
theorem stereo_pole_limits_witness :
    (0 : ℝ) < 1 ∧ (0 : ℝ) < 1 ∧
    4 * (1 : ℝ) ^ 4 / (1 : ℝ) ^ 2 + 2 * (1 : ℝ) ^ 3 / (1 : ℝ) ≤ (3 : ℝ) ^ 2 + (0 : ℝ) ^ 2 ∧
    (get_point_on_sphere ![0, 0, 0] 1 = ![0, 0, 1] ∧
      |get_point_on_sphere ![3, 0, 0] 1 0| ≤ 1 ∧
      |get_point_on_sphere ![3, 0, 0] 1 1| ≤ 1 ∧
      |get_point_on_sphere ![3, 0, 0] 1 2 + 1| ≤ 1) :=
  ⟨by norm_num, by norm_num, by norm_num,
    stereo_pole_limits 1 3 0 1 (by norm_num) (by norm_num) (by norm_num)⟩

/-- C3: `get_pix_on_img` clamps `z` to at most `r` and then returns
`row = round(arccos(z/r)/π * h_img) mod h_img` and
`col = round((arctan2(y,x)/(2π) + 0.5) * w_img) mod w_img`; in particular
`z = r` gives row `0` and `z = -r` gives `round(h_img) mod h_img = 0`. -/
theorem pix_mapper_formula (p : Fin 3 → ℝ) (r : ℝ) (h_img w_img : ℕ)
    (hr : 0 < r) (hh : 0 < h_img) (hw : 0 < w_img) :
    get_pix_on_img p r h_img w_img =
      (pyRound (Real.arccos (clamp_z (p 2) r / r) / Real.pi * (h_img : ℝ)) % (h_img : ℤ),
       pyRound ((arctan2 (p 1) (p 0) / (2 * Real.pi) + 0.5) * (w_img : ℝ)) % (w_img : ℤ)) ∧
    (∀ x y : ℝ, (get_pix_on_img ![x, y, r] r h_img w_img).1 = 0) ∧
    (∀ x y : ℝ, (get_pix_on_img ![x, y, -r] r h_img w_img).1 = 0) := by
  refine ⟨?_, ?_, ?_⟩
  · simp only [get_pix_on_img]
    rw [div_div]
  · intro x y
    have h1 : clamp_z r r = r := by simp [clamp_z]
    simp [get_pix_on_img, h1, div_self hr.ne', Real.arccos_one, pyRound_zero]
  · intro x y
    have h1 : clamp_z (-r) r = -r := by
      simp only [clamp_z, if_neg (by linarith : ¬ -r > r)]
    have h2 : -r / r = -1 := by
      rw [neg_div, div_self hr.ne']
    simp only [get_pix_on_img]
    simp [h1, h2, Real.arccos_neg_one, div_self Real.pi_ne_zero, pyRound_natCast]

/-- Witness for C3 at `p = (0,0,0)`, `r = 1`, `h_img = w_img = 4`. -/
theorem pix_mapper_formula_witness :
    (0 : ℝ) < 1 ∧ 0 < 4 ∧ 0 < 4 ∧
    (get_pix_on_img ![(0 : ℝ), 0, 0] 1 4 4 =
        (pyRound (Real.arccos (clamp_z (![(0 : ℝ), 0, 0] 2) 1 / 1) / Real.pi * ((4 : ℕ) : ℝ)) %
            ((4 : ℕ) : ℤ),
         pyRound ((arctan2 (![(0 : ℝ), 0, 0] 1) (![(0 : ℝ), 0, 0] 0) / (2 * Real.pi) + 0.5) *
            ((4 : ℕ) : ℝ)) % ((4 : ℕ) : ℤ)) ∧
      (∀ x y : ℝ, (get_pix_on_img ![x, y, 1] 1 4 4).1 = 0) ∧
      (∀ x y : ℝ, (get_pix_on_img ![x, y, -1] 1 4 4).1 = 0)) :=
  ⟨by norm_num, by norm_num, by norm_num,
    pix_mapper_formula ![0, 0, 0] 1 4 4 (by norm_num) (by norm_num) (by norm_num)⟩

/-- C4: `get_pix_on_img` is total over all real inputs with `r > 0` and
positive dimensions, and its output indices always satisfy
`0 ≤ row < h_img` and `0 ≤ col < w_img`. -/
theorem pix_mapper_total_range (p : Fin 3 → ℝ) (r : ℝ) (h_img w_img : ℕ)
    (hr : 0 < r) (hh : 0 < h_img) (hw : 0 < w_img) :
    0 ≤ (get_pix_on_img p r h_img w_img).1 ∧
    (get_pix_on_img p r h_img w_img).1 < (h_img : ℤ) ∧
    0 ≤ (get_pix_on_img p r h_img w_img).2 ∧
    (get_pix_on_img p r h_img w_img).2 < (w_img : ℤ) :=
  get_pix_on_img_bounds p r h_img w_img hh hw

/-- Witness for C4 at `p = (0,0,0)`, `r = 1`, `h_img = w_img = 4`. -/
theorem pix_mapper_total_range_witness :
    (0 : ℝ) < 1 ∧ 0 < 4 ∧ 0 < 4 ∧
    (0 ≤ (get_pix_on_img ![(0 : ℝ), 0, 0] 1 4 4).1 ∧
      (get_pix_on_img ![(0 : ℝ), 0, 0] 1 4 4).1 < ((4 : ℕ) : ℤ) ∧
      0 ≤ (get_pix_on_img ![(0 : ℝ), 0, 0] 1 4 4).2 ∧
      (get_pix_on_img ![(0 : ℝ), 0, 0] 1 4 4).2 < ((4 : ℕ) : ℤ)) :=
  ⟨by norm_num, by norm_num, by norm_num,
    pix_mapper_total_range ![0, 0, 0] 1 4 4 (by norm_num) (by norm_num) (by norm_num)⟩

/-- C5: for every output pixel, any finite plane offsets, any rotation
angles, any `r > 0` and positive source dimensions, the full projection
pipeline returns a pair with `0 ≤ row < h_img` and `0 ≤ col < w_img`. -/
theorem projection_total_range (pix : ℤ × ℤ) (r : ℝ) (h_img w_img h_proj w_proj : ℕ)
    (ov oh a b g : ℝ) (hr : 0 < r) (hh : 0 < h_img) (hw : 0 < w_img) :
    0 ≤ (projection pix r h_img w_img h_proj w_proj ov oh (rot_mat a b g)).1 ∧
    (projection pix r h_img w_img h_proj w_proj ov oh (rot_mat a b g)).1 < (h_img : ℤ) ∧
    0 ≤ (projection pix r h_img w_img h_proj w_proj ov oh (rot_mat a b g)).2 ∧
    (projection pix r h_img w_img h_proj w_proj ov oh (rot_mat a b g)).2 < (w_img : ℤ) := by
  simp only [projection]
  exact get_pix_on_img_bounds _ _ _ _ hh hw

/-- Witness for C5 at pixel `(0,0)`, `r = 1`, all dimensions `4`, zero
offsets and zero angles. -/
theorem projection_total_range_witness :
    (0 : ℝ) < 1 ∧ 0 < 4 ∧ 0 < 4 ∧
    (0 ≤ (projection (0, 0) 1 4 4 4 4 0 0 (rot_mat 0 0 0)).1 ∧
      (projection (0, 0) 1 4 4 4 4 0 0 (rot_mat 0 0 0)).1 < ((4 : ℕ) : ℤ) ∧
      0 ≤ (projection (0, 0) 1 4 4 4 4 0 0 (rot_mat 0 0 0)).2 ∧
      (projection (0, 0) 1 4 4 4 4 0 0 (rot_mat 0 0 0)).2 < ((4 : ℕ) : ℤ)) :=
  ⟨by norm_num, by norm_num, by norm_num,
    projection_total_range (0, 0) 1 4 4 4 4 0 0 0 0 0 (by norm_num) (by norm_num) (by norm_num)⟩

section RotHelpers

lemma rot_mat_eq_prod (a b g : ℝ) : rot_mat a b g = Rz g * Ry b * Rx a := by
  ext i j
  fin_cases i <;> fin_cases j <;>
    simp [rot_mat, Rx, Ry, Rz, Matrix.mul_apply, Fin.sum_univ_three,
      Matrix.vecHead, Matrix.vecTail, -mul_eq_zero] <;> ring

lemma transpose_mul_apply (A : Matrix (Fin 3) (Fin 3) ℝ) (i j : Fin 3) :
    (Aᵀ * A) i j = A 0 i * A 0 j + A 1 i * A 1 j + A 2 i * A 2 j := by
  simp [Matrix.mul_apply, Fin.sum_univ_three, Matrix.transpose_apply]

lemma Rx_orth (t : ℝ) : (Rx t)ᵀ * Rx t = 1 := by
  ext i j
  rw [transpose_mul_apply]
  fin_cases i <;> fin_cases j <;>
    simp only [Rx, Matrix.of_apply, Matrix.cons_val', Matrix.cons_val_zero,
      Matrix.cons_val_one, Matrix.cons_val_two, Matrix.head_cons, Matrix.tail_cons,
      Matrix.head_fin_const, Matrix.empty_val', Matrix.cons_val_fin_one,
      Matrix.one_apply, Fin.isValue] <;>
    norm_num [Fin.ext_iff] <;>
    first
    | linear_combination Real.sin_sq_add_cos_sq t
    | ring1

lemma Ry_orth (t : ℝ) : (Ry t)ᵀ * Ry t = 1 := by
  ext i j
  rw [transpose_mul_apply]
  fin_cases i <;> fin_cases j <;>
    simp only [Ry, Matrix.of_apply, Matrix.cons_val', Matrix.cons_val_zero,
      Matrix.cons_val_one, Matrix.cons_val_two, Matrix.head_cons, Matrix.tail_cons,
      Matrix.head_fin_const, Matrix.empty_val', Matrix.cons_val_fin_one,
      Matrix.one_apply, Fin.isValue] <;>
    norm_num [Fin.ext_iff] <;>
    first
    | linear_combination Real.sin_sq_add_cos_sq t
    | ring1

lemma Rz_orth (t : ℝ) : (Rz t)ᵀ * Rz t = 1 := by
  ext i j
  rw [transpose_mul_apply]
  fin_cases i <;> fin_cases j <;>
    simp only [Rz, Matrix.of_apply, Matrix.cons_val', Matrix.cons_val_zero,
      Matrix.cons_val_one, Matrix.cons_val_two, Matrix.head_cons, Matrix.tail_cons,
      Matrix.head_fin_const, Matrix.empty_val', Matrix.cons_val_fin_one,
      Matrix.one_apply, Fin.isValue] <;>
    norm_num [Fin.ext_iff] <;>
    first
    | linear_combination Real.sin_sq_add_cos_sq t
    | ring1

lemma transpose_mul_self_one {A B : Matrix (Fin 3) (Fin 3) ℝ}
    (hA : Aᵀ * A = 1) (hB : Bᵀ * B = 1) : (A * B)ᵀ * (A * B) = 1 := by
  rw [Matrix.transpose_mul, Matrix.mul_assoc, ← Matrix.mul_assoc Aᵀ A B, hA,
    Matrix.one_mul, hB]

lemma rot_mat_orth (a b g : ℝ) : (rot_mat a b g)ᵀ * rot_mat a b g = 1 := by
  rw [rot_mat_eq_prod]
  exact transpose_mul_self_one (transpose_mul_self_one (Rz_orth g) (Ry_orth b)) (Rx_orth a)

lemma sumsq_mulVec {M : Matrix (Fin 3) (Fin 3) ℝ} (hM : Mᵀ * M = 1) (v : Fin 3 → ℝ) :
    sumsq (M.mulVec v) = sumsq v := by
  have e : ∀ i j, (Mᵀ * M) i j = (1 : Matrix (Fin 3) (Fin 3) ℝ) i j := fun i j => by rw [hM]
  have e00 := e 0 0
  have e01 := e 0 1
  have e02 := e 0 2
  have e11 := e 1 1
  have e12 := e 1 2
  have e22 := e 2 2
  simp [Matrix.mul_apply, Fin.sum_univ_three, Matrix.transpose_apply, Matrix.one_apply]
    at e00 e01 e02 e11 e12 e22
  simp [sumsq, Matrix.mulVec, dotProduct, Fin.sum_univ_three]
  linear_combination v 0 ^ 2 * e00 + v 1 ^ 2 * e11 + v 2 ^ 2 * e22 +
    2 * v 0 * v 1 * e01 + 2 * v 0 * v 2 * e02 + 2 * v 1 * v 2 * e12

end RotHelpers

/-- C6: the 3x3 matrix built by the program equals the product
`Rz(gamma) * Ry(beta) * Rx(alpha)` of the standard single-axis rotation
matrices, and with all angles zero it is exactly the identity matrix. -/
theorem rot_mat_is_product (a b g : ℝ) :
    rot_mat a b g = Rz g * Ry b * Rx a ∧ rot_mat 0 0 0 = 1 := by
  refine ⟨rot_mat_eq_prod a b g, ?_⟩
  ext i j
  fin_cases i <;> fin_cases j <;> norm_num [rot_mat, Matrix.one_apply, Fin.ext_iff]

/-- C7: for every angle triple the built rotation matrix `M` satisfies
`Mᵀ * M = 1`, and `axis_rotate` with `M` preserves the Euclidean norm of
every 3-D point. -/
theorem rot_mat_orthonormal (a b g : ℝ) :
    (rot_mat a b g)ᵀ * rot_mat a b g = 1 ∧
    ∀ p : Fin 3 → ℝ, norm3 (axis_rotate p (rot_mat a b g)) = norm3 p := by
  refine ⟨rot_mat_orth a b g, fun p => ?_⟩
  unfold norm3 axis_rotate
  rw [sumsq_mulVec (rot_mat_orth a b g)]

/-- C8: `projection` converts the output pixel to the plane point
`(row + (offset_ver - 0.5)*h_proj, col + (offset_hor - 0.5)*w_proj, 0)`,
then applies the Sphere Intersector, the Axis Rotator, and the
Sphere-to-Image Mapper, in exactly that order. -/
theorem projection_composes (pix : ℤ × ℤ) (r : ℝ) (h_img w_img h_proj w_proj : ℕ)
    (ov oh : ℝ) (m : Matrix (Fin 3) (Fin 3) ℝ) :
    projection pix r h_img w_img h_proj w_proj ov oh m =
      get_pix_on_img
        (axis_rotate
          (get_point_on_sphere
            ![(pix.1 : ℝ) + (ov - 0.5) * (h_proj : ℝ),
              (pix.2 : ℝ) + (oh - 0.5) * (w_proj : ℝ), 0] r)
          m) r h_img w_img := rfl

section SamplerHelpers

lemma mem_ndindex (h w : ℕ) (p : ℤ × ℤ) :
    p ∈ ndindex h w ↔ 0 ≤ p.1 ∧ p.1 < (h : ℤ) ∧ 0 ≤ p.2 ∧ p.2 < (w : ℤ) := by
  rcases p with ⟨a, b⟩
  simp only [ndindex, List.mem_flatMap, List.mem_map, List.mem_range, Prod.mk.injEq,
    Int.ofNat_eq_coe]
  constructor
  · rintro ⟨i, hi, j, hj, hja, hjb⟩
    omega
  · rintro ⟨ha, hb, hc, hd⟩
    exact ⟨a.toNat, by omega, b.toNat, by omega, by omega, by omega⟩

lemma ndindex_nodup (h w : ℕ) : (ndindex h w).Nodup := by
  refine List.nodup_flatMap.2 ⟨fun i _ => ?_, ?_⟩
  · exact (List.nodup_range w).map (fun x y hxy => by
      have := congrArg Prod.snd hxy
      simpa using this)
  · refine List.Pairwise.imp ?_ (List.nodup_range h)
    intro i j hij
    intro q hq1 hq2
    simp only [Function.onFun, List.mem_map, List.mem_range] at hq1 hq2
    obtain ⟨j1, _, rfl⟩ := hq1
    obtain ⟨j2, _, h2⟩ := hq2
    have := congrArg Prod.fst h2
    simp only [Int.ofNat_eq_coe] at this
    exact hij (by exact_mod_cast this.symm)

lemma nodup_count_eq_one (l : List (ℤ × ℤ)) (q : ℤ × ℤ) (d : l.Nodup) (h : q ∈ l) :
    l.count q = 1 := by
  induction l with
  | nil => simp at h
  | cons a l ih =>
    rw [List.count_cons]
    rcases List.nodup_cons.1 d with ⟨hna, hd⟩
    rcases List.mem_cons.1 h with rfl | hmem
    · simp [List.count_eq_zero.2 hna]
    · have hqa : q ≠ a := fun e => hna (e ▸ hmem)
      have haq : a ≠ q := Ne.symm hqa
      simp [ih hd hmem, hqa, haq]

lemma foldl_update_eq {C : Type} (f : ℤ × ℤ → C) (l : List (ℤ × ℤ))
    (init : ℤ × ℤ → C) (q : ℤ × ℤ) :
    (l.foldl (fun buf p => Function.update buf p (f p)) init) q =
      if q ∈ l then f q else init q := by
  induction l generalizing init with
  | nil => simp
  | cons a l ih =>
    simp only [List.foldl_cons, ih, List.mem_cons]
    by_cases hq : q ∈ l
    · simp [hq]
    · by_cases hqa : q = a
      · subst hqa
        simp [hq, Function.update_same]
      · simp [hq, hqa, Function.update_noteq hqa]

end SamplerHelpers

/-- C9: the sampling loop visits every output coordinate exactly once,
writes at each the source color at `projection(coordinate)`, and is a
deterministic pure function: two runs with identical configuration and
source buffer produce identical output buffers. -/
theorem sampler_exactly_once_deterministic {C : Type} (src init : ℤ × ℤ → C)
    (r : ℝ) (h_img w_img h_proj w_proj : ℕ) (ov oh : ℝ)
    (m : Matrix (Fin 3) (Fin 3) ℝ) (p : ℤ × ℤ)
    (hp1 : 0 ≤ p.1) (hp2 : p.1 < (h_proj : ℤ))
    (hp3 : 0 ≤ p.2) (hp4 : p.2 < (w_proj : ℤ)) :
    (ndindex h_proj w_proj).count p = 1 ∧
    run_pipeline src init r h_img w_img h_proj w_proj ov oh m p =
      src (projection p r h_img w_img h_proj w_proj ov oh m) ∧
    run_pipeline src init r h_img w_img h_proj w_proj ov oh m =
      run_pipeline src init r h_img w_img h_proj w_proj ov oh m := by
  have hmem : p ∈ ndindex h_proj w_proj := (mem_ndindex _ _ p).2 ⟨hp1, hp2, hp3, hp4⟩
  refine ⟨nodup_count_eq_one _ _ (ndindex_nodup _ _) hmem, ?_, rfl⟩
  unfold run_pipeline
  rw [foldl_update_eq]
  simp [hmem]

/-- Witness for C9 with a constant source buffer, `2 × 2` buffers, `r = 1`,
zero offsets and zero angles, at output coordinate `(0, 0)`. -/
theorem sampler_exactly_once_deterministic_witness :
    (0 : ℤ) ≤ ((0, 0) : ℤ × ℤ).1 ∧ ((0, 0) : ℤ × ℤ).1 < ((2 : ℕ) : ℤ) ∧
    (0 : ℤ) ≤ ((0, 0) : ℤ × ℤ).2 ∧ ((0, 0) : ℤ × ℤ).2 < ((2 : ℕ) : ℤ) ∧
    ((ndindex 2 2).count (0, 0) = 1 ∧
      run_pipeline (fun _ => (0 : ℕ)) (fun _ => 1) 1 2 2 2 2 0 0 (rot_mat 0 0 0) (0, 0) =
        (fun _ => (0 : ℕ)) (projection (0, 0) 1 2 2 2 2 0 0 (rot_mat 0 0 0)) ∧
      run_pipeline (fun _ => (0 : ℕ)) (fun _ => 1) 1 2 2 2 2 0 0 (rot_mat 0 0 0) =
        run_pipeline (fun _ => (0 : ℕ)) (fun _ => 1) 1 2 2 2 2 0 0 (rot_mat 0 0 0)) :=
  ⟨by norm_num, by norm_num, by norm_num, by norm_num,
    sampler_exactly_once_deterministic (fun _ => 0) (fun _ => 1) 1 2 2 2 2 0 0
      (rot_mat 0 0 0) (0, 0) (by norm_num) (by norm_num) (by norm_num) (by norm_num)⟩

section SphereHelpers

lemma get_point_on_sphere_sumsq (x y z r : ℝ) (hr : 0 < r) :
    sumsq (get_point_on_sphere ![x, y, z] r) = r ^ 2 := by
  have hD : x ^ 2 + y ^ 2 + r ^ 2 ≠ 0 := by positivity
  simp only [get_point_on_sphere, sumsq, Matrix.cons_val_zero, Matrix.cons_val_one,
    Matrix.head_cons, Matrix.cons_val_two, Matrix.tail_cons]
  field_simp
  ring

end SphereHelpers

/-- C10: the point returned by `get_point_on_sphere` lies exactly on the
sphere of radius `r` (sum of squared coordinates `= r^2`), its
`z`-coordinate lies in `(-r, r]`, and after rotating with the program's
rotation matrix and applying the clamp, the argument `z/r` fed to `arccos`
in `get_pix_on_img` always lies in `[-1, 1]`. -/
theorem sphere_point_invariants (x y a b g r : ℝ) (hr : 0 < r) :
    sumsq (get_point_on_sphere ![x, y, 0] r) = r ^ 2 ∧
    (-r < get_point_on_sphere ![x, y, 0] r 2 ∧
      get_point_on_sphere ![x, y, 0] r 2 ≤ r) ∧
    (-1 ≤ clamp_z (axis_rotate (get_point_on_sphere ![x, y, 0] r) (rot_mat a b g) 2) r / r ∧
      clamp_z (axis_rotate (get_point_on_sphere ![x, y, 0] r) (rot_mat a b g) 2) r / r ≤ 1) := by
  have hD : (0 : ℝ) < x ^ 2 + y ^ 2 + r ^ 2 := by positivity
  have hsum : sumsq (get_point_on_sphere ![x, y, 0] r) = r ^ 2 :=
    get_point_on_sphere_sumsq x y 0 r hr
  have hP2 : get_point_on_sphere ![x, y, 0] r 2
      = (2 * r ^ 2 / (x ^ 2 + y ^ 2 + r ^ 2) - 1) * r := by
    simp [get_point_on_sphere]
  have hk0 : 0 < 2 * r ^ 2 / (x ^ 2 + y ^ 2 + r ^ 2) := by positivity
  have hk2 : 2 * r ^ 2 / (x ^ 2 + y ^ 2 + r ^ 2) ≤ 2 := by
    rw [div_le_iff hD]
    nlinarith [sq_nonneg x, sq_nonneg y]
  refine ⟨hsum, ⟨?_, ?_⟩, ?_⟩
  · rw [hP2]
    nlinarith [mul_pos hk0 hr]
  · rw [hP2]
    nlinarith [mul_nonneg (sub_nonneg.2 hk2) hr.le]
  · have hsum' : sumsq (axis_rotate (get_point_on_sphere ![x, y, 0] r) (rot_mat a b g))
        = r ^ 2 := by
      unfold axis_rotate
      rw [sumsq_mulVec (rot_mat_orth a b g), hsum]
    have hz2 : (axis_rotate (get_point_on_sphere ![x, y, 0] r) (rot_mat a b g) 2) ^ 2
        ≤ r ^ 2 := by
      have h0 := sq_nonneg (axis_rotate (get_point_on_sphere ![x, y, 0] r) (rot_mat a b g) 0)
      have h1 := sq_nonneg (axis_rotate (get_point_on_sphere ![x, y, 0] r) (rot_mat a b g) 1)
      unfold sumsq at hsum'
      linarith
    have habs := abs_le_of_sq_le_sq hz2 hr.le
    have hzl := (abs_le.1 habs).1
    have hzu := (abs_le.1 habs).2
    unfold clamp_z
    by_cases hc : axis_rotate (get_point_on_sphere ![x, y, 0] r) (rot_mat a b g) 2 > r
    · rw [if_pos hc, div_self hr.ne']
      norm_num
    · rw [if_neg hc]
      push_neg at hc
      constructor
      · rw [le_div_iff hr]
        linarith
      · rw [div_le_one hr]
        exact hc

/-- Witness for C10 at `x = y = 0`, zero angles, `r = 1`. -/
theorem sphere_point_invariants_witness :
    (0 : ℝ) < 1 ∧
    (sumsq (get_point_on_sphere ![0, 0, 0] 1) = 1 ^ 2 ∧
      (-1 < get_point_on_sphere ![0, 0, 0] 1 2 ∧
        get_point_on_sphere ![0, 0, 0] 1 2 ≤ 1) ∧
      (-1 ≤ clamp_z (axis_rotate (get_point_on_sphere ![0, 0, 0] 1) (rot_mat 0 0 0) 2) 1 / 1 ∧
        clamp_z (axis_rotate (get_point_on_sphere ![0, 0, 0] 1) (rot_mat 0 0 0) 2) 1 / 1 ≤ 1)) :=
  ⟨by norm_num, sphere_point_invariants 0 0 0 0 0 1 (by norm_num)⟩
